import Mathlib

/-!
Verification of the blockchain demo (src/blockchain.py) against its
natural-language specification.

Modelling conventions:
* SHA-256 (hashlib, an external library) is abstracted: `Hs : String → String`
  stands for `lambda s, hashlib.sha256(s.encode()).hexdigest()` and
  `H : BlockVal → String` stands for
  `lambda b, hashlib.sha256(json.dumps(b, sort_keys=True).encode()).hexdigest()`
  (the JSON serialization involves float timestamps, so the whole composite is
  kept abstract).  Theorems that need a property of the digest (it is a 64
  hex-character string) take it as a hypothesis.
* Python lists that are shared by reference (each block's `transactions` list
  and the `current_transactions` buffer) live in an explicit `Store`; a block
  record holds a cell index `txRef` instead of an inline list.  Dict copies
  (`dict.copy()`) are value copies of the record, which keep the cell index —
  exactly the aliasing behaviour of `Blockchain.clone`.
* Nondeterministic draws (`time()`, `uuid4()`) are supplied by a counter-indexed
  oracle `fresh : Nat → String`, or as explicit string parameters where a
  single draw is needed.  Integer messages are modelled by their decimal string
  (that is how they enter `str.format` and hashing).
* Unbounded loops are given fuel: `proof_of_work` becomes a bounded search that
  returns `none` when the fuel runs out (the Python code would still be
  looping), and the never-redrawing collision loop in `key_pair` becomes the
  `none` result of `PyCryptoSim.key_pair`.
* Python exceptions are modelled by `Option`/`Except` results.
-/

/-- A transaction dict.  `message` holds the decimal string of the integer
message.  `recipient` can be a plain address string, or — after the
tuple-producing tampering in `Ent.some_fake` (`recepient = self.new_address(),`
note the trailing comma) — a 1-tuple containing an address. -/
inductive Recip
  | s (v : String)
  | tup (v : String)
deriving DecidableEq

structure Txn where
  sender : String
  recipient : Recip
  amount : Int
  signature : Option String
  message : Option String
deriving DecidableEq

/-- Python truthiness of a recipient value: a string is truthy iff nonempty,
a 1-tuple is always truthy. -/
def Recip.truthy : Recip → Bool
  | Recip.s v => decide (v ≠ "")
  | Recip.tup _ => true

/-- Python `pk == recipient` where the left side is a string: a tuple never
equals a string. -/
def Recip.eqStr (pk : String) : Recip → Bool
  | Recip.s v => decide (pk = v)
  | Recip.tup _ => false

/-- The mutable object store holding every `transactions` list object.
A reference is an index into `cells`; allocation appends. -/
structure Store where
  cells : List (List Txn)
deriving DecidableEq

def Store.get (s : Store) (r : Nat) : List Txn := s.cells.getD r []

def Store.set (s : Store) (r : Nat) (v : List Txn) : Store := ⟨s.cells.set r v⟩

def Store.alloc (s : Store) (v : List Txn) : Store × Nat :=
  (⟨s.cells ++ [v]⟩, s.cells.length)

/-- A block dict as stored in `Blockchain.chain`: the `transactions` entry is a
reference to a list object in the store. -/
structure BlockRec where
  index : Nat
  timestamp : String
  txRef : Nat
  proof : Nat
  previous_hash : String
deriving DecidableEq

/-- A block with its transaction list materialized (the shape a peer's
JSON-decoded block has, and the shape the hash function consumes). -/
structure BlockVal where
  index : Nat
  timestamp : String
  transactions : List Txn
  proof : Nat
  previous_hash : String
deriving DecidableEq

def matBlock (s : Store) (b : BlockRec) : BlockVal :=
  { index := b.index, timestamp := b.timestamp, transactions := s.get b.txRef,
    proof := b.proof, previous_hash := b.previous_hash }

/-- The `Blockchain` object.  `bufRef` is the reference held by the
`current_transactions` attribute. -/
structure Blockchain where
  chain : List BlockRec
  bufRef : Nat
  nodes : List String
  mining_rate : Nat
  proof_sum : Nat
  proof_cnt : Nat
deriving DecidableEq

def Blockchain.viewChain (s : Store) (bc : Blockchain) : List BlockVal :=
  bc.chain.map (matBlock s)

def Blockchain.viewBuf (s : Store) (bc : Blockchain) : List Txn :=
  s.get bc.bufRef

/-- Well-formedness of a ledger against a store: every held reference is a
live cell and no sealed block aliases the pending buffer.  Every state
reachable from `Blockchain.__init__` satisfies this. -/
def BCWF (s : Store) (bc : Blockchain) : Prop :=
  bc.bufRef < s.cells.length ∧
  ∀ b ∈ bc.chain, b.txRef < s.cells.length ∧ b.txRef ≠ bc.bufRef

instance (s : Store) (bc : Blockchain) : Decidable (BCWF s bc) := by
  unfold BCWF; infer_instance

/-- `Blockchain.valid_proof(last_proof, proof, mining_rate)`:
`guess = f'{last_proof}{proof}'.encode(); guess_hash = sha256(guess).hexdigest();
return guess_hash[:4] == "0" * mining_rate`.  Note the hard-coded `[:4]` slice
against a target of length `mining_rate`. -/
def Blockchain.valid_proof (Hs : String → String) (last_proof proof mining_rate : Nat) : Bool :=
  decide ((Hs (toString last_proof ++ toString proof)).data.take 4 =
    List.replicate mining_rate '0')

/-- The body of the `while current_index < len(chain)` loop of
`Blockchain.valid_chain`, with `last_block` as the explicit accumulator.
The `silence` flag only controls printing and is dropped. -/
def validLoop (Hs : String → String) (H : BlockVal → String) (mining_rate : Nat) :
    BlockVal → List BlockVal → Bool
  | _, [] => true
  | last, b :: rest =>
    if b.previous_hash ≠ H last then false
    else if Blockchain.valid_proof Hs last.proof b.proof mining_rate = false then false
    else validLoop Hs H mining_rate b rest

/-- `Blockchain.valid_chain(chain)`: reads `chain[0]` unconditionally (an
`IndexError`, modelled as `none`, on an empty chain), then walks adjacent
pairs.  Uses the validator's own `mining_rate`. -/
def Blockchain.valid_chain (Hs : String → String) (H : BlockVal → String)
    (mining_rate : Nat) : List BlockVal → Option Bool
  | [] => none
  | b :: rest => some (validLoop Hs H mining_rate b rest)

/-- `Blockchain.__init__(proof, mining_rate)`: starts with a fresh (empty)
`current_transactions` list, an empty chain and node set, then seals the
genesis block via `new_block(previous_hash='1', proof=proof)` (which installs
the current buffer — empty — as the genesis transactions list and rebinds
`current_transactions` to another fresh list), and finally zeroes the proof
statistics.  `ts` is the `time()` draw for the genesis timestamp. -/
def Blockchain.mkInit (s : Store) (ts : String) (proof mining_rate : Nat) :
    Store × Blockchain :=
  let a1 := s.alloc []
  let a2 := a1.1.alloc []
  (a2.1,
    { chain := [{ index := 1, timestamp := ts, txRef := a1.2, proof := proof,
                  previous_hash := "1" }],
      bufRef := a2.2, nodes := [], mining_rate := mining_rate,
      proof_sum := 0, proof_cnt := 0 })

/-- `Blockchain.new_block(proof, previous_hash)`: builds the block dict with
`'transactions': self.current_transactions` (the buffer object itself, by
reference) and `'previous_hash': previous_hash or self.hash(self.chain[-1])`
(the falsy-string fallback hashes the materialized last block; on an empty
chain that read raises `IndexError`, modelled `none`), appends it, and rebinds
`current_transactions` to a fresh empty list.  `ts` is the `time()` draw. -/
def Blockchain.new_block (H : BlockVal → String) (ts : String) (proof : Nat)
    (previous_hash : String) (s : Store) (bc : Blockchain) :
    Option (Store × Blockchain × BlockRec) :=
  match (if previous_hash = "" then (bc.chain.getLast?).map (fun lb => H (matBlock s lb))
         else some previous_hash) with
  | none => none
  | some ph =>
    let blk : BlockRec :=
      { index := bc.chain.length + 1, timestamp := ts, txRef := bc.bufRef,
        proof := proof, previous_hash := ph }
    let a := s.alloc []
    some (a.1, { bc with chain := bc.chain ++ [blk], bufRef := a.2 }, blk)

/-- Python truthiness of an optional string field. -/
def truthyStr : Option String → Bool
  | none => false
  | some v => decide (v ≠ "")

/-- `Blockchain.new_transaction(sender, recipient, amount, signature, msg)`:
appends the transaction dict to the current buffer (in place — the store cell
is updated), attaching `signature`/`message` only when `msg and signature` is
truthy, then returns `self.last_block['index'] + 1` (an `IndexError`, modelled
`none` in the second component, when the chain is empty — the append has
already happened by then). -/
def Blockchain.new_transaction (sender : String) (recipient : Recip) (amount : Int)
    (signature msg : Option String) (s : Store) (bc : Blockchain) :
    Store × Option Nat :=
  let t : Txn :=
    if truthyStr msg && truthyStr signature then
      { sender := sender, recipient := recipient, amount := amount,
        signature := signature, message := msg }
    else
      { sender := sender, recipient := recipient, amount := amount,
        signature := none, message := none }
  let s' := s.set bc.bufRef (s.get bc.bufRef ++ [t])
  match bc.chain.getLast? with
  | none => (s', none)
  | some lb => (s', some (lb.index + 1))

/-- `Blockchain.clone()`: `copy = Blockchain()` (default arguments: genesis
proof 100, mining_rate 4; its freshly built genesis chain and buffer are then
overwritten and become garbage), `copy.current_transactions = [t.copy() for t
in self.current_transactions]` (a fresh list of value-copied dicts),
`copy.chain = [c.copy() for c in self.chain]` (fresh block dicts whose
`transactions` entries still reference the source's list objects — a shallow
copy at that level), `copy.nodes = self.nodes.copy()`.  The proof statistics
stay at the constructor's zeroes and `mining_rate` at the default 4.
`ts` is the `time()` draw for the discarded genesis. -/
def Blockchain.clone (ts : String) (s : Store) (bc : Blockchain) :
    Store × Blockchain :=
  let i := Blockchain.mkInit s ts 100 4
  let a := i.1.alloc (i.1.get bc.bufRef)
  (a.1, { i.2 with chain := bc.chain, bufRef := a.2, nodes := bc.nodes })

/-- `Blockchain.proof_of_work`'s search: the first candidate from 0 upward
satisfying `valid_proof`, bounded by `fuel` (the Python loop is unbounded;
`none` models a search still running after `fuel` candidates). -/
def findProof (Hs : String → String) (last_proof mining_rate fuel : Nat) : Option Nat :=
  (List.range fuel).find? (fun p => Blockchain.valid_proof Hs last_proof p mining_rate)

/-- The body of the `for node in neighbours` loop of
`Blockchain.resolve_conflicts`, threading `(max_length, new_chain)`.
`fetch` models `requests.get(f'http://{node}/chain')`: `none` is a
non-200/unreachable peer, otherwise the reported `length` and decoded `chain`.
A candidate longer than the running maximum is validated with
`valid_chain(..., silence=True)`; validating an empty candidate raises
`IndexError` (`none` overall). -/
def resolveLoop (Hs : String → String) (H : BlockVal → String) (mining_rate : Nat)
    (fetch : String → Option (Nat × List BlockVal)) :
    List String → Nat → Option (List BlockVal) → Option (Nat × Option (List BlockVal))
  | [], maxLen, best => some (maxLen, best)
  | n :: ns, maxLen, best =>
    match fetch n with
    | none => resolveLoop Hs H mining_rate fetch ns maxLen best
    | some (len, c) =>
      if maxLen < len then
        match Blockchain.valid_chain Hs H mining_rate c with
        | none => none
        | some true => resolveLoop Hs H mining_rate fetch ns len (some c)
        | some false => resolveLoop Hs H mining_rate fetch ns maxLen best
      else resolveLoop Hs H mining_rate fetch ns maxLen best

/-- `Blockchain.resolve_conflicts()`: scans the peers with `max_length`
initialized to the local chain's length; afterwards `if new_chain:` adopts the
best accepted candidate (the truthiness test also rejects an empty list,
though no empty chain can ever be accepted) and reports whether a replacement
happened.  Stated over materialized chains; `nodes` is the set's iteration
order. -/
def Blockchain.resolve_conflicts (Hs : String → String) (H : BlockVal → String)
    (mining_rate : Nat) (fetch : String → Option (Nat × List BlockVal))
    (nodes : List String) (localChain : List BlockVal) :
    Option (Bool × List BlockVal) :=
  match resolveLoop Hs H mining_rate fetch nodes localChain.length none with
  | none => none
  | some (_, some c) => if c.isEmpty then some (false, localChain) else some (true, c)
  | some (_, none) => some (false, localChain)

/-- Lookup in a Python dict modelled as an insertion-ordered association list. -/
def dictGet {β : Type} : List (String × β) → String → Option β
  | [], _ => none
  | p :: rest, k => if p.1 = k then some p.2 else dictGet rest k

/-- Assignment `d[k] = v` in a Python dict: replace in place if present,
append otherwise. -/
def dictSet {β : Type} : List (String × β) → String → β → List (String × β)
  | [], k, v => [(k, v)]
  | p :: rest, k, v => if p.1 = k then (k, v) :: rest else p :: dictSet rest k v

/-- The signature simulator: a registry mapping public to private identifiers. -/
structure PyCryptoSim where
  pairs : List (String × String)
deriving DecidableEq

/-- `PyCryptoSim.commit(private, msg)`:
`sha256(f"{private}{msg}".encode()[:64]).hexdigest()` (identifiers and
messages are ASCII, so the 64-byte truncation is a 64-character truncation). -/
def PyCryptoSim.commit (Hs : String → String) (priv msg : String) : String :=
  Hs ((priv ++ msg).take 64)

/-- `PyCryptoSim.verify(public, msg, commit)`: `False` when `public` is not
registered, otherwise recompute the commitment from the registered private
identifier and compare. -/
def PyCryptoSim.verify (Hs : String → String) (sim : PyCryptoSim)
    (pub msg com : String) : Bool :=
  match dictGet sim.pairs pub with
  | none => false
  | some sk => decide (PyCryptoSim.commit Hs sk msg = com)

/-- `PyCryptoSim.key_pair()`: `pub`/`priv` are the two `uuid4()` draws.  When
`pub` is already registered the `while True` loop re-checks the same key
forever (it never redraws), modelled as `none`; otherwise the pair is
registered and returned (the final `self.pairs[public] != private` sanity
check cannot fire on this path). -/
def PyCryptoSim.key_pair (pub priv : String) (sim : PyCryptoSim) :
    Option (PyCryptoSim × String × String) :=
  match dictGet sim.pairs pub with
  | none => some (⟨sim.pairs ++ [(pub, priv)]⟩, pub, priv)
  | some _ => none

/-- An entity: a name, the privately held public→private key map, and its own
simulator instance. -/
structure Ent where
  name : String
  keys : List (String × String)
  crypto : PyCryptoSim
deriving DecidableEq

/-- `Ent.new_address()`: mints a key pair on the entity's simulator, retains
the private half in `self.keys`, returns the public identifier. -/
def Ent.new_address (pub priv : String) (self : Ent) : Option (String × Ent) :=
  match PyCryptoSim.key_pair pub priv self.crypto with
  | none => none
  | some (sim', pu, pr) =>
    some (pu, { self with keys := dictSet self.keys pu pr, crypto := sim' })

/-- Per-transaction step of `Ent.balance`, threading the balance for one owned
key `pk` and the oracle counter.  When `pk` equals the recorded sender the
code draws a *fresh* message `str(time())` and checks
`verify(sender, msg, commit(sk, msg))` — the transaction's recorded
signature/message are not consulted; likewise with a fresh `uuid4()` when `pk`
equals the recorded recipient. -/
def balTxn (Hs : String → String) (fresh : Nat → String) (sim : PyCryptoSim)
    (pk sk : String) (t : Txn) (acc : Int × Nat) : Int × Nat :=
  let acc1 :=
    if pk = t.sender then
      (if PyCryptoSim.verify Hs sim pk (fresh acc.2)
          (PyCryptoSim.commit Hs sk (fresh acc.2)) then acc.1 - t.amount else acc.1,
       acc.2 + 1)
    else acc
  if Recip.eqStr pk t.recipient then
    (if PyCryptoSim.verify Hs sim pk (fresh acc1.2)
        (PyCryptoSim.commit Hs sk (fresh acc1.2)) then acc1.1 + t.amount else acc1.1,
     acc1.2 + 1)
  else acc1

/-- The two inner loops of `Ent.balance` for one owned key: scan every block's
transaction list in chain order (a block with an empty list is just skipped). -/
def balKey (Hs : String → String) (fresh : Nat → String) (sim : PyCryptoSim)
    (pk sk : String) (chainV : List BlockVal) (k : Nat) : Int × Nat :=
  chainV.foldl
    (fun acc bv => bv.transactions.foldl (fun a t => balTxn Hs fresh sim pk sk t a) acc)
    (0, k)

/-- `Ent.balance(blockchain)`: a per-address breakdown dict in key-insertion
order (each address initialized to 0 and then accumulated by a full chain
replay) together with the aggregate total; also returns the final oracle
counter. -/
def Ent.balance (Hs : String → String) (fresh : Nat → String) (k : Nat)
    (self : Ent) (s : Store) (bc : Blockchain) :
    Int × List (String × Int) × Nat :=
  let res := self.keys.foldl
    (fun (acc : List (String × Int) × Nat) (p : String × String) =>
      let r := balKey Hs fresh self.crypto p.1 p.2 (Blockchain.viewChain s bc) acc.2
      (acc.1 ++ [(p.1, r.1)], r.2))
    ([], k)
  (res.1.foldl (fun a e => a + e.2) 0, res.1, res.2)

/-- The exceptions an entity operation can surface.  `noFuel` and `keyLoop`
are model artifacts standing for the two unbounded loops (proof-of-work
search, key-collision retry) still running. -/
inductive GErr
  | insufficientBalance
  | negBalance
  | overpaid
  | indexErr
  | keyLoop
  | noFuel
deriving DecidableEq

/-- The `for payer, coins in balance.items()` loop of `Ent.gives`: raise on a
negative balance when (and only when) the scan reaches it, skip zero balances,
otherwise pay `min(due, coins)` from this address to a freshly minted address
of the recipient entity, signing with `commit(payer, msg)` — note the code
commits with the *public* `payer` identifier — and `break` once `due` hits 0.
Draws per payment: the `int(time())` message, then the recipient's two
`uuid4()` key draws. -/
def payLoop (Hs : String → String) (fresh : Nat → String) :
    List (String × Int) → Int → Nat → Ent → Store → Blockchain →
    Store × Except GErr (Blockchain × Ent × Nat)
  | [], _, k, rec, s, copy => (s, Except.ok (copy, rec, k))
  | (payer, coins) :: rest, due, k, rec, s, copy =>
    if coins < 0 then (s, Except.error GErr.negBalance)
    else if coins = 0 then payLoop Hs fresh rest due k rec s copy
    else
      let pay := if due > coins then coins else due
      let due' := due - pay
      let msg := fresh k
      match Ent.new_address (fresh (k + 1)) (fresh (k + 2)) rec with
      | none => (s, Except.error GErr.keyLoop)
      | some (addr, rec') =>
        let s' := (Blockchain.new_transaction payer (Recip.s addr) pay
          (some (PyCryptoSim.commit Hs payer msg)) (some msg) s copy).1
        if due' = 0 then (s', Except.ok (copy, rec', k + 3))
        else if due' < 0 then (s', Except.error GErr.overpaid)
        else payLoop Hs fresh rest due' (k + 3) rec' s' copy

/-- `Ent.gives(blockchain, recepient, amount)`: clone the ledger (one `time()`
draw for the discarded genesis), compute this entity's balance over the
*original* ledger, fail with InsufficientFunds when `amount > held`, run the
greedy payment loop on the clone, then seal the fork:
`previous_hash = copy.hash(copy.last_block)` (an `IndexError` on an empty
chain), `proof = copy.work_for_proof()` (searching at the *clone's*
`mining_rate`, updating the clone's proof statistics), `copy.new_block(proof,
previous_hash)` (one more `time()` draw).  Returns the fork, the mutated
recipient entity and the final oracle counter; the original ledger is never
written. -/
def Ent.gives (Hs : String → String) (H : BlockVal → String) (fresh : Nat → String)
    (k fuel : Nat) (self rec : Ent) (amount : Int) (s : Store) (bc : Blockchain) :
    Store × Except GErr (Blockchain × Ent × Nat) :=
  let c := Blockchain.clone (fresh k) s bc
  let bal := Ent.balance Hs fresh (k + 1) self s bc
  if bal.1 < amount then (c.1, Except.error GErr.insufficientBalance)
  else
    match payLoop Hs fresh bal.2.1 amount bal.2.2 rec c.1 c.2 with
    | (s2, Except.error e) => (s2, Except.error e)
    | (s2, Except.ok (copy2, rec', k2)) =>
      match copy2.chain.getLast? with
      | none => (s2, Except.error GErr.indexErr)
      | some lastB =>
        let ph := H (matBlock s2 lastB)
        match findProof Hs lastB.proof copy2.mining_rate fuel with
        | none => (s2, Except.error GErr.noFuel)
        | some p =>
          let copy3 := { copy2 with
            proof_sum := copy2.proof_sum + p, proof_cnt := copy2.proof_cnt + 1 }
          match Blockchain.new_block H (fresh k2) p ph s2 copy3 with
          | none => (s2, Except.error GErr.indexErr)
          | some (s3, copy4, _) => (s3, Except.ok (copy4, rec', k2 + 1))

/-- `Ent.mine(blockchain)` with `speed=None` (the probabilistic skip is not
modelled): clone, search a proof at the clone's rate, append the one-unit
reward transaction `('from mine' → self.new_address())`, seal with the hash of
the pre-reward last block. -/
def Ent.mine (Hs : String → String) (H : BlockVal → String) (fresh : Nat → String)
    (k fuel : Nat) (self : Ent) (s : Store) (bc : Blockchain) :
    Store × Except GErr (Blockchain × Ent × Nat) :=
  let c := Blockchain.clone (fresh k) s bc
  match c.2.chain.getLast? with
  | none => (c.1, Except.error GErr.indexErr)
  | some lastB =>
    match findProof Hs lastB.proof c.2.mining_rate fuel with
    | none => (c.1, Except.error GErr.noFuel)
    | some p =>
      let copy1 := { c.2 with
        proof_sum := c.2.proof_sum + p, proof_cnt := c.2.proof_cnt + 1 }
      match Ent.new_address (fresh (k + 1)) (fresh (k + 2)) self with
      | none => (c.1, Except.error GErr.keyLoop)
      | some (addr, self') =>
        let s2 := (Blockchain.new_transaction "from mine" (Recip.s addr) 1
          none none c.1 copy1).1
        let ph := H (matBlock s2 lastB)
        match Blockchain.new_block H (fresh (k + 3)) p ph s2 copy1 with
        | none => (s2, Except.error GErr.indexErr)
        | some (s3, copy2, _) => (s3, Except.ok (copy2, self', k + 4))

/-- The first transaction of a list whose recipient is truthy (the inner
`for transaction in transactions` scan of `Ent.some_fake`). -/
def findTruthy (ts : List Txn) : Option Txn :=
  ts.find? (fun t => t.recipient.truthy)

/-- The `for i in range(len(faked.chain))` scan of `Ent.some_fake`: the index,
block and transaction of the first block containing a truthy-recipient
transaction. -/
def findFakeIdx (s : Store) : List BlockRec → Nat → Option (Nat × BlockRec × Txn)
  | [], _ => none
  | b :: rest, i =>
    match findTruthy (s.get b.txRef) with
    | some t => some (i, b, t)
    | none => findFakeIdx s rest (i + 1)

/-- `Ent.some_fake(blockchain)`: clone, find the first sealed block holding a
truthy-recipient transaction, copy that transaction substituting
`recipient = self.new_address(),` (a 1-tuple, from the trailing comma), append
it to a *copied* transaction list, install a copied block dict pointing at the
new list, and return the fork at once.  If no such block exists the untampered
clone is returned.  `ts` is the clone's `time()` draw, `pub`/`priv` the
`uuid4()` draws of `new_address`. -/
def Ent.some_fake (ts pub priv : String) (self : Ent) (s : Store) (bc : Blockchain) :
    Option (Store × Blockchain × Ent) :=
  let c := Blockchain.clone ts s bc
  match findFakeIdx c.1 c.2.chain 0 with
  | none => some (c.1, c.2, self)
  | some (i, b, t) =>
    match Ent.new_address pub priv self with
    | none => none
    | some (addr, self') =>
      let t' := { t with recipient := Recip.tup addr }
      let a := c.1.alloc (c.1.get b.txRef ++ [t'])
      some (a.1, { c.2 with chain := c.2.chain.set i { b with txRef := a.2 } }, self')

/-- `Ent.validate_blockchain(blockchain)`: report accept/reject from
`valid_chain(chain, silence=True)` at the ledger's own `mining_rate`
(`none` models the `IndexError` on an empty chain). -/
def Ent.validate_blockchain (Hs : String → String) (H : BlockVal → String)
    (self : Ent) (s : Store) (bc : Blockchain) : Option String :=
  match Blockchain.valid_chain Hs H bc.mining_rate (Blockchain.viewChain s bc) with
  | none => none
  | some true => some (self.name ++ " accepts the blockchain")
  | some false => some (self.name ++ " rejects the blockchain")

/-- Ledger states produced from a genesis construction by any interleaving of
`new_transaction` calls and `new_block` calls whose `previous_hash` argument
is either omitted/empty (triggering the `previous_hash or hash(chain[-1])`
fallback) or explicitly the hash of the then-last block — the discipline of
every sealing site in the program. -/
inductive Reach (H : BlockVal → String) : Store → Blockchain → Prop
  | genesis (s : Store) (ts : String) (seed rate : Nat) :
      Reach H (Blockchain.mkInit s ts seed rate).1 (Blockchain.mkInit s ts seed rate).2
  | newTx (s : Store) (bc : Blockchain) (sender : String) (r : Recip) (a : Int)
      (sig msg : Option String) :
      Reach H s bc →
      Reach H (Blockchain.new_transaction sender r a sig msg s bc).1 bc
  | newBlk (s s' : Store) (bc bc' : Blockchain) (ts : String) (p : Nat)
      (ph : String) (blk : BlockRec) :
      Reach H s bc →
      (ph = "" ∨ ∃ lb, bc.chain.getLast? = some lb ∧ ph = H (matBlock s lb)) →
      Blockchain.new_block H ts p ph s bc = some (s', bc', blk) →
      Reach H s' bc'

/-- Spec-side (signature-free) per-transaction balance step: debit when `pk`
is the sender, credit when `pk` is the recipient — no signature involved.
Used to state what `Ent.balance` actually computes. -/
def netTxn (pk : String) (t : Txn) (acc : Int) : Int :=
  let a1 := if pk = t.sender then acc - t.amount else acc
  if Recip.eqStr pk t.recipient then a1 + t.amount else a1

/-- Spec-side net balance of one address over a materialized chain. -/
def netKey (pk : String) (chainV : List BlockVal) : Int :=
  chainV.foldl (fun acc bv => bv.transactions.foldl (fun a t => netTxn pk t a) acc) 0

/-- In-place mutation `bc.chain[i]['transactions'].append(t)`. -/
def appendToBlockTxs (s : Store) (bc : Blockchain) (i : Nat) (t : Txn) : Store :=
  match bc.chain.get? i with
  | none => s
  | some b => s.set b.txRef (s.get b.txRef ++ [t])

/-- In-place mutation `bc.current_transactions.append(t)`. -/
def appendToBuf (s : Store) (bc : Blockchain) (t : Txn) : Store :=
  s.set bc.bufRef (s.get bc.bufRef ++ [t])

/-- A concrete 64-hex-character digest value (all zeros) used to instantiate
the abstract hash in witnesses: under `cHs` every guess hash starts with four
zeros, so proof-of-work at the default difficulty 4 succeeds at nonce 0. -/
def czeros : String := String.mk (List.replicate 64 '0')

/-- Concrete instantiation of the string-level SHA-256 hexdigest. -/
def cHs : String → String := fun _ => czeros

/-- Concrete instantiation of the block-level hash. -/
def cH : BlockVal → String := fun _ => "hh"

/-- Concrete oracle of pairwise-distinct draws. -/
def cfresh : Nat → String := fun k => "f" ++ toString k

/-- Concrete transaction used in counterexample ledgers. -/
def cTxn1 : Txn :=
  { sender := "A", recipient := Recip.s "B", amount := 1,
    signature := none, message := none }

/-- A second concrete transaction, used as the mutation payload for C3. -/
def cTxnExtra : Txn :=
  { sender := "M", recipient := Recip.s "N", amount := 9,
    signature := none, message := none }

/-- C3 scenario, step 0: a fresh ledger (`Blockchain()`). -/
def c3i : Store × Blockchain := Blockchain.mkInit ⟨[]⟩ "t0" 100 4

/-- C3 scenario, step 1: one pending transaction appended. -/
def c3s2 : Store :=
  (Blockchain.new_transaction "A" (Recip.s "B") 1 none none c3i.1 c3i.2).1

/-- C3 scenario: the store expected after sealing the pending transaction
into block 2 (`new_block(7, "ph")`). -/
def c3s3 : Store := ⟨[[], [cTxn1], []]⟩

/-- C3 scenario: the genesis block record. -/
def c3g : BlockRec :=
  { index := 1, timestamp := "t0", txRef := 0, proof := 100, previous_hash := "1" }

/-- C3 scenario: the sealed second block record; its transactions list is
store cell 1. -/
def c3blk : BlockRec :=
  { index := 2, timestamp := "t1", txRef := 1, proof := 7, previous_hash := "ph" }

/-- C3 scenario: the two-block source ledger. -/
def c3bc1 : Blockchain :=
  { chain := [c3g, c3blk], bufRef := 2, nodes := [], mining_rate := 4,
    proof_sum := 0, proof_cnt := 0 }

/-- C3 scenario: the store after cloning the source (three fresh cells: the
discarded constructor allocations and the copied pending buffer). -/
def c3s4 : Store := ⟨[[], [cTxn1], [], [], [], []]⟩

/-- C3 scenario: the clone — same block records (hence same `txRef` cells),
fresh buffer cell 5, constructor-default difficulty and statistics. -/
def c3cln : Blockchain :=
  { chain := [c3g, c3blk], bufRef := 5, nodes := [], mining_rate := 4,
    proof_sum := 0, proof_cnt := 0 }

/-- C2 scenario: the entity's simulator registry. -/
def c2sim : PyCryptoSim := ⟨[("X", "skX")]⟩

/-- C2 scenario: an entity owning address `X`. -/
def c2ent : Ent := { name := "A", keys := [("X", "skX")], crypto := c2sim }

/-- C2 scenario: a transaction sent from the owned address `X` whose recorded
signature `"deadbeef"` does not verify against its recorded message `"m"`. -/
def c2t : Txn :=
  { sender := "X", recipient := Recip.s "R", amount := 5,
    signature := some "deadbeef", message := some "m" }

/-- C2 scenario store: cell 0 is the genesis transactions list, cell 1 the
sealed block's list holding the bogus-signature transaction, cell 2 the
pending buffer. -/
def c2s : Store := ⟨[[], [c2t], []]⟩

/-- C2 scenario ledger: genesis plus one sealed block. -/
def c2bc : Blockchain :=
  { chain := [{ index := 1, timestamp := "t0", txRef := 0, proof := 100,
                previous_hash := "1" },
              { index := 2, timestamp := "t1", txRef := 1, proof := 0,
                previous_hash := "hh" }],
    bufRef := 2, nodes := [], mining_rate := 4, proof_sum := 0, proof_cnt := 0 }

/-- C7 scenario: entity A owns `X` (balance +5) and `Y` (balance −2), with
`X` first in iteration order. -/
def c7entA : Ent :=
  { name := "A", keys := [("X", "skX"), ("Y", "skY")],
    crypto := ⟨[("X", "skX"), ("Y", "skY")]⟩ }

/-- C7 scenario: the recipient entity. -/
def c7entB : Ent := { name := "B", keys := [], crypto := ⟨[]⟩ }

/-- C7 witness entity: same holdings as `c7entA` but with the negative
address `Y` first in key-insertion (hence iteration) order. -/
def c7entA2 : Ent :=
  { name := "A2", keys := [("Y", "skY"), ("X", "skX")],
    crypto := ⟨[("X", "skX"), ("Y", "skY")]⟩ }

/-- C7 scenario: block-2 transactions: 5 coins into `X`, 2 coins out of `Y`. -/
def c7txs : List Txn :=
  [{ sender := "s0", recipient := Recip.s "X", amount := 5,
     signature := none, message := none },
   { sender := "Y", recipient := Recip.s "Z", amount := 2,
     signature := none, message := none }]

/-- C7 scenario store. -/
def c7s : Store := ⟨[[], c7txs, []]⟩

/-- C7 scenario ledger. -/
def c7bc : Blockchain :=
  { chain := [{ index := 1, timestamp := "t0", txRef := 0, proof := 100,
                previous_hash := "1" },
              { index := 2, timestamp := "t1", txRef := 1, proof := 0,
                previous_hash := "hh" }],
    bufRef := 2, nodes := [], mining_rate := 4, proof_sum := 0, proof_cnt := 0 }

/-- An entity with no keys (used by the C6 witness: any positive request
exceeds its zero balance). -/
def cEntEmpty : Ent := { name := "E", keys := [], crypto := ⟨[]⟩ }

/-- Whether an entity operation returned a fork (no exception). -/
def isOkB : Except GErr (Blockchain × Ent × Nat) → Bool
  | Except.ok _ => true
  | Except.error _ => false

/-- C4 witness: a materialized genesis block. -/
def c4gv : BlockVal :=
  { index := 1, timestamp := "t0", transactions := [], proof := 100,
    previous_hash := "1" }

/-- C4 witness: a materialized sealed block linking to `c4gv` under `cH` and
mined at difficulty 4 under `cHs`. -/
def c4bv : BlockVal :=
  { index := 2, timestamp := "t1", transactions := [cTxn1], proof := 0,
    previous_hash := "hh" }

/-- C4 witness: one reachable peer reporting a longer valid chain. -/
def c4fetch : String → Option (Nat × List BlockVal) :=
  fun n => if n = "n1" then some (2, [c4gv, c4bv]) else none

/-- C5 witness: the sealed block record (proof 0 is valid at difficulty 4
under `cHs`; its `previous_hash` is `cH` of the genesis). -/
def c5blk : BlockRec :=
  { index := 2, timestamp := "t1", txRef := 1, proof := 0, previous_hash := "hh" }

/-- C5 witness: a valid two-block ledger over the store `c3s3`. -/
def c5bc : Blockchain :=
  { chain := [c3g, c5blk], bufRef := 2, nodes := [], mining_rate := 4,
    proof_sum := 0, proof_cnt := 0 }

/-- C8 witness: the block sealed by `new_block(5, "")` on a fresh ledger —
the empty `previous_hash` triggers the `hash(chain[-1])` fallback, which is
`cH` of the genesis, `"hh"`. -/
def c8blk : BlockRec :=
  { index := 2, timestamp := "t1", txRef := 1, proof := 5, previous_hash := "hh" }

/-- C8 witness: the store after that sealing. -/
def c8s1 : Store := ⟨[[], [], []]⟩

/-- C8 witness: the two-block ledger after that sealing. -/
def c8bc1 : Blockchain :=
  { chain := [c3g, c8blk], bufRef := 2, nodes := [], mining_rate := 4,
    proof_sum := 0, proof_cnt := 0 }

/-- Claim C1 (code bug evaluation): at difficulty 0 the code returns `False`
for the genesis scenario `valid_proof(100, 0, 0)`, because it always slices
the first 4 hex characters of the digest and compares them with the
0-character string `"0" * 0`.  The spec says difficulty 0 holds trivially. -/
theorem c1_valid_proof_difficulty_zero_returns_false (Hs : String → String)
    (hlen : (Hs "1000").length = 64) :
    Blockchain.valid_proof Hs 100 0 0 = false := by
  have hguess : toString (100 : Nat) ++ toString (0 : Nat) = "1000" := rfl
  unfold Blockchain.valid_proof
  rw [hguess]
  simp only [List.replicate, decide_eq_false_iff_not]
  intro htake
  have hdata : (Hs "1000").data.length = 64 := hlen
  have : (Hs "1000").data.take 4 ≠ [] := by
    intro h
    rw [List.take_eq_nil_iff] at h
    rcases h with h | h
    · exact absurd h (by decide)
    · rw [h] at hdata; simp at hdata
  exact this htake

/-- Witness for C1: a concrete 64-character digest function. -/
theorem c1_witness :
    Blockchain.valid_proof (fun _ => String.mk (List.replicate 64 '0')) 100 0 0 = false :=
  c1_valid_proof_difficulty_zero_returns_false _ (by decide)

/-- Claim C10: `valid_chain` is total exactly on non-empty chains: it raises
`IndexError` (modelled `none`) on the empty chain because it unconditionally
reads `chain[0]`, it returns a boolean on every non-empty chain, and it
accepts every single-block chain regardless of the block's contents. -/
theorem c10_valid_chain_partiality (Hs : String → String) (H : BlockVal → String)
    (mining_rate : Nat) :
    Blockchain.valid_chain Hs H mining_rate [] = none ∧
    (∀ b rest, ∃ r : Bool, Blockchain.valid_chain Hs H mining_rate (b :: rest) = some r) ∧
    (∀ b, Blockchain.valid_chain Hs H mining_rate [b] = some true) := by
  refine ⟨rfl, fun b rest => ⟨validLoop Hs H mining_rate b rest, rfl⟩, fun b => rfl⟩

/-! ### Store and clone lemmas -/

theorem store_get_append (s : Store) (xs : List (List Txn)) (r : Nat)
    (h : r < s.cells.length) : Store.get ⟨s.cells ++ xs⟩ r = s.get r := by
  unfold Store.get
  exact List.getD_append _ _ _ _ h

theorem store_get_oob (s : Store) (r : Nat) (h : s.cells.length ≤ r) :
    s.get r = [] := by
  unfold Store.get
  exact List.getD_eq_default _ _ h

theorem store_get_set_ne (s : Store) (r r' : Nat) (v : List Txn) (h : r ≠ r') :
    (s.set r v).get r' = s.get r' := by
  unfold Store.get Store.set
  show ((s.cells.set r v).get? r').getD [] = (s.cells.get? r').getD []
  rw [List.get?_set_ne _ _ h]

theorem store_get_set_self (s : Store) (r : Nat) (v : List Txn)
    (h : r < s.cells.length) : (s.set r v).get r = v := by
  unfold Store.get Store.set
  show ((s.cells.set r v).get? r).getD [] = v
  rw [List.get?_set_eq_of_lt _ h]
  rfl

/-- Cells appended past the live range that hold `[]` are invisible to
`Store.get` (the default is also `[]`). -/
theorem store_get_append_nils (s : Store) (r : Nat) :
    Store.get ⟨s.cells ++ [[], []]⟩ r = s.get r := by
  rcases Nat.lt_or_ge r s.cells.length with h | h
  · exact store_get_append s _ _ h
  · rw [store_get_oob s r h]
    unfold Store.get
    rw [List.getD_append_right _ _ _ _ h]
    rcases hr : r - s.cells.length with _ | n
    · rfl
    · rcases n with _ | m
      · rfl
      · simp [List.getD]

/-- The store after `Blockchain.clone`: three cells are appended — the two
discarded constructor lists and the copy of the source's pending buffer. -/
theorem clone_fst (ts : String) (s : Store) (bc : Blockchain) :
    (Blockchain.clone ts s bc).1 = ⟨s.cells ++ [[], [], s.get bc.bufRef]⟩ := by
  unfold Blockchain.clone Blockchain.mkInit Store.alloc
  have hget : Store.get ⟨(s.cells ++ [[]]) ++ [[]]⟩ bc.bufRef = s.get bc.bufRef := by
    rw [show (s.cells ++ [[]]) ++ [[]] = s.cells ++ [[], []] by simp]
    exact store_get_append_nils s bc.bufRef
  show Store.mk (((s.cells ++ [[]]) ++ [[]]) ++ [Store.get ⟨(s.cells ++ [[]]) ++ [[]]⟩ bc.bufRef]) = _
  rw [hget]
  simp

/-- The ledger record after `Blockchain.clone`: the source's block records,
node set, a fresh buffer reference, and constructor-default `mining_rate` and
proof statistics. -/
theorem clone_snd (ts : String) (s : Store) (bc : Blockchain) :
    (Blockchain.clone ts s bc).2 =
      { chain := bc.chain, bufRef := s.cells.length + 2, nodes := bc.nodes,
        mining_rate := 4, proof_sum := 0, proof_cnt := 0 } := by
  unfold Blockchain.clone Blockchain.mkInit Store.alloc
  show Blockchain.mk bc.chain ((s.cells ++ [[]]) ++ [[]]).length bc.nodes 4 0 0 = _
  simp


/-- Cloning never disturbs a live cell. -/
theorem clone_get_lt (ts : String) (s : Store) (bc : Blockchain) (r : Nat)
    (h : r < s.cells.length) :
    (Blockchain.clone ts s bc).1.get r = s.get r := by
  rw [clone_fst]
  exact store_get_append s _ _ h

/-- The clone's fresh buffer cell holds a copy of the source's buffer. -/
theorem clone_get_buf (ts : String) (s : Store) (bc : Blockchain) :
    (Blockchain.clone ts s bc).1.get (s.cells.length + 2) = s.get bc.bufRef := by
  rw [clone_fst]
  unfold Store.get
  rw [List.getD_append_right _ _ _ _ (by omega)]
  have : s.cells.length + 2 - s.cells.length = 2 := by omega
  rw [this]
  rfl

/-- The source's materialized chain is unchanged by cloning. -/
theorem clone_viewChain_src (ts : String) (s : Store) (bc : Blockchain)
    (hwf : BCWF s bc) :
    Blockchain.viewChain (Blockchain.clone ts s bc).1 bc = Blockchain.viewChain s bc := by
  unfold Blockchain.viewChain
  refine List.map_eq_map_iff.mpr (fun b hb => ?_)
  unfold matBlock
  rw [clone_get_lt ts s bc b.txRef (hwf.2 b hb).1]

/-- The source's materialized buffer is unchanged by cloning. -/
theorem clone_viewBuf_src (ts : String) (s : Store) (bc : Blockchain)
    (hwf : BCWF s bc) :
    Blockchain.viewBuf (Blockchain.clone ts s bc).1 bc = Blockchain.viewBuf s bc := by
  unfold Blockchain.viewBuf
  exact clone_get_lt ts s bc bc.bufRef hwf.1

/-- The clone materializes to the same chain as the source. -/
theorem clone_viewChain_clone (ts : String) (s : Store) (bc : Blockchain)
    (hwf : BCWF s bc) :
    Blockchain.viewChain (Blockchain.clone ts s bc).1 (Blockchain.clone ts s bc).2 =
      Blockchain.viewChain s bc := by
  unfold Blockchain.viewChain
  rw [clone_snd]
  show bc.chain.map (matBlock (Blockchain.clone ts s bc).1) = _
  exact clone_viewChain_src ts s bc hwf

/-- The clone materializes to the same pending buffer as the source. -/
theorem clone_viewBuf_clone (ts : String) (s : Store) (bc : Blockchain) :
    Blockchain.viewBuf (Blockchain.clone ts s bc).1 (Blockchain.clone ts s bc).2 =
      Blockchain.viewBuf s bc := by
  unfold Blockchain.viewBuf
  rw [clone_snd]
  exact clone_get_buf ts s bc

/-- Claim C9: `clone()` rebuilds the copy through the default constructor
`Blockchain()` and copies only the buffer, chain and node set, so the copy's
`mining_rate` is the constructor default 4 and its proof statistics are reset
to 0 whatever the source held; consequently `Gives` and `Mine`, which operate
on a clone, are insensitive to the source ledger's `mining_rate` — they search
and seal at difficulty 4. -/
theorem c9_clone_resets_difficulty_and_stats :
    (∀ (ts : String) (s : Store) (bc : Blockchain),
      (Blockchain.clone ts s bc).2.mining_rate = 4 ∧
      (Blockchain.clone ts s bc).2.proof_sum = 0 ∧
      (Blockchain.clone ts s bc).2.proof_cnt = 0) ∧
    (∀ (Hs : String → String) (H : BlockVal → String) (fresh : Nat → String)
      (k fuel : Nat) (self rcp : Ent) (amount : Int) (s : Store) (bc : Blockchain)
      (r r' : Nat),
      Ent.gives Hs H fresh k fuel self rcp amount s { bc with mining_rate := r } =
      Ent.gives Hs H fresh k fuel self rcp amount s { bc with mining_rate := r' }) ∧
    (∀ (Hs : String → String) (H : BlockVal → String) (fresh : Nat → String)
      (k fuel : Nat) (self : Ent) (s : Store) (bc : Blockchain) (r r' : Nat),
      Ent.mine Hs H fresh k fuel self s { bc with mining_rate := r } =
      Ent.mine Hs H fresh k fuel self s { bc with mining_rate := r' }) := by
  refine ⟨fun ts s bc => ?_, fun Hs H fresh k fuel self rcp amount s bc r r' => rfl,
    fun Hs H fresh k fuel self s bc r r' => rfl⟩
  rw [clone_snd]
  exact ⟨rfl, rfl, rfl⟩

/-! ### Claims C6 and C7: error handling in `Ent.gives` -/

/-- Claim C6: when the requested amount strictly exceeds the caller's total
owned balance, `gives` fails with InsufficientFunds before touching anything
but its private clone: no fork is returned and the original ledger's
materialized chain and pending buffer (hence also the chain length) are
exactly as before. -/
theorem c6_gives_insufficient_funds (Hs : String → String) (H : BlockVal → String)
    (fresh : Nat → String) (k fuel : Nat) (self rcp : Ent) (amount : Int)
    (s : Store) (bc : Blockchain) (hwf : BCWF s bc)
    (hgt : (Ent.balance Hs fresh (k + 1) self s bc).1 < amount) :
    ∃ s', Ent.gives Hs H fresh k fuel self rcp amount s bc =
        (s', Except.error GErr.insufficientBalance) ∧
      Blockchain.viewChain s' bc = Blockchain.viewChain s bc ∧
      Blockchain.viewBuf s' bc = Blockchain.viewBuf s bc := by
  refine ⟨(Blockchain.clone (fresh k) s bc).1, ?_,
    clone_viewChain_src _ s bc hwf, clone_viewBuf_src _ s bc hwf⟩
  simp only [Ent.gives]
  rw [if_pos hgt]

/-- Witness for C6: an entity owning no addresses asks for 1 coin from a
fresh ledger. -/
theorem c6_witness :
    ∃ s', Ent.gives cHs cH cfresh 0 1 cEntEmpty c7entB 1 c3i.1 c3i.2 =
        (s', Except.error GErr.insufficientBalance) ∧
      Blockchain.viewChain s' c3i.2 = Blockchain.viewChain c3i.1 c3i.2 ∧
      Blockchain.viewBuf s' c3i.2 = Blockchain.viewBuf c3i.1 c3i.2 :=
  c6_gives_insufficient_funds cHs cH cfresh 0 1 cEntEmpty c7entB 1 c3i.1 c3i.2
    (by decide) (by decide)

/-- Claim C7 counterexample: entity `A` owns `X` (+5) and `Y` (−2); with
sufficient total balance (3), `Gives(…, 3)` is fully covered by `X`, the loop
`break`s before ever inspecting `Y`, and the transfer *succeeds* — no
LedgerCorruption is raised although an owned address shows a negative
balance. -/
theorem c7_counterexample :
    (Ent.balance cHs cfresh 1 c7entA c7s c7bc).2.1 = [("X", 5), ("Y", -2)] ∧
    isOkB (Ent.gives cHs cH cfresh 0 1 c7entA c7entB 3 c7s c7bc).2 = true := by
  exact ⟨by decide, by decide⟩

/-- Claim C7 (amended): `gives` raises LedgerCorruption only when the greedy
scan actually reaches a negative-balance address before the amount is
covered; in particular when the *first* owned address in iteration order has
a negative balance (and the total suffices), the transfer aborts with
LedgerCorruption, no fork is produced, and the original ledger is unchanged. -/
theorem c7_gives_negative_first_aborts (Hs : String → String) (H : BlockVal → String)
    (fresh : Nat → String) (k fuel : Nat) (self rcp : Ent) (amount : Int)
    (s : Store) (bc : Blockchain) (p0 : String × Int) (rest : List (String × Int))
    (hwf : BCWF s bc)
    (hle : ¬ (Ent.balance Hs fresh (k + 1) self s bc).1 < amount)
    (hbal : (Ent.balance Hs fresh (k + 1) self s bc).2.1 = p0 :: rest)
    (hneg : p0.2 < 0) :
    ∃ s', Ent.gives Hs H fresh k fuel self rcp amount s bc =
        (s', Except.error GErr.negBalance) ∧
      Blockchain.viewChain s' bc = Blockchain.viewChain s bc ∧
      Blockchain.viewBuf s' bc = Blockchain.viewBuf s bc := by
  refine ⟨(Blockchain.clone (fresh k) s bc).1, ?_,
    clone_viewChain_src _ s bc hwf, clone_viewBuf_src _ s bc hwf⟩
  have key : payLoop Hs fresh ((Ent.balance Hs fresh (k + 1) self s bc).2.1) amount
      ((Ent.balance Hs fresh (k + 1) self s bc).2.2) rcp
      (Blockchain.clone (fresh k) s bc).1 (Blockchain.clone (fresh k) s bc).2 =
      ((Blockchain.clone (fresh k) s bc).1, Except.error GErr.negBalance) := by
    rw [hbal]
    rcases p0 with ⟨payer, coins⟩
    unfold payLoop
    rw [if_pos hneg]
  simp only [Ent.gives]
  rw [if_neg hle, key]

/-- Witness for the amended C7: the negative address `Y` first in iteration
order aborts the same transfer that succeeded in the counterexample. -/
theorem c7_witness :
    ∃ s', Ent.gives cHs cH cfresh 0 1 c7entA2 c7entB 3 c7s c7bc =
        (s', Except.error GErr.negBalance) ∧
      Blockchain.viewChain s' c7bc = Blockchain.viewChain c7s c7bc ∧
      Blockchain.viewBuf s' c7bc = Blockchain.viewBuf c7s c7bc :=
  c7_gives_negative_first_aborts cHs cH cfresh 0 1 c7entA2 c7entB 3 c7s c7bc
    ("Y", -2) [("X", 5)] (by decide) (by decide) (by decide) (by decide)

/-! ### Claim C3: what independence `clone` actually provides -/

/-- Claim C3 counterexample: after cloning a two-block ledger, appending a
transaction *in place* to the clone's sealed block (`clone.chain[1]
['transactions'].append(...)`) changes the source ledger's materialized
chain: the block dicts were copied but their `transactions` lists are the
same objects. -/
theorem c3_counterexample :
    Blockchain.new_block cH "t1" 7 "ph" c3s2 c3i.2 = some (c3s3, c3bc1, c3blk) ∧
    Blockchain.clone "t2" c3s3 c3bc1 = (c3s4, c3cln) ∧
    Blockchain.viewChain c3s4 c3bc1 = Blockchain.viewChain c3s3 c3bc1 ∧
    Blockchain.viewChain (appendToBlockTxs c3s4 c3cln 1 cTxnExtra) c3bc1 ≠
      Blockchain.viewChain c3s4 c3bc1 := by
  refine ⟨by decide, by decide, by decide, by decide⟩

/-- Claim C3 (amended): `clone` copies the chain list, every block record and
the pending buffer, so the clone and the source have equal materialized
views, and appending to either ledger's *pending buffer* never affects the
other; but each cloned block keeps the very same `transactions` list object
(`clone.chain = source.chain`, reference and all), so an in-place append into
a cloned block's transaction list is visible through the source block (and
vice versa). -/
theorem c3_clone_independence_amended (ts : String) (s : Store) (bc : Blockchain)
    (hwf : BCWF s bc) :
    (Blockchain.clone ts s bc).2.chain = bc.chain ∧
    Blockchain.viewChain (Blockchain.clone ts s bc).1 (Blockchain.clone ts s bc).2 =
      Blockchain.viewChain s bc ∧
    Blockchain.viewBuf (Blockchain.clone ts s bc).1 (Blockchain.clone ts s bc).2 =
      Blockchain.viewBuf s bc ∧
    (∀ t, Blockchain.viewChain
        (appendToBuf (Blockchain.clone ts s bc).1 (Blockchain.clone ts s bc).2 t) bc =
        Blockchain.viewChain (Blockchain.clone ts s bc).1 bc ∧
      Blockchain.viewBuf
        (appendToBuf (Blockchain.clone ts s bc).1 (Blockchain.clone ts s bc).2 t) bc =
        Blockchain.viewBuf (Blockchain.clone ts s bc).1 bc) ∧
    (∀ t, Blockchain.viewChain (appendToBuf (Blockchain.clone ts s bc).1 bc t)
        (Blockchain.clone ts s bc).2 =
        Blockchain.viewChain (Blockchain.clone ts s bc).1 (Blockchain.clone ts s bc).2 ∧
      Blockchain.viewBuf (appendToBuf (Blockchain.clone ts s bc).1 bc t)
        (Blockchain.clone ts s bc).2 =
        Blockchain.viewBuf (Blockchain.clone ts s bc).1 (Blockchain.clone ts s bc).2) ∧
    (∀ i b t, bc.chain.get? i = some b →
      Store.get (appendToBlockTxs (Blockchain.clone ts s bc).1
          (Blockchain.clone ts s bc).2 i t) b.txRef =
        Store.get (Blockchain.clone ts s bc).1 b.txRef ++ [t]) := by
  refine ⟨by rw [clone_snd], clone_viewChain_clone ts s bc hwf,
    clone_viewBuf_clone ts s bc, fun t => ⟨?_, ?_⟩, fun t => ⟨?_, ?_⟩,
    fun i b t hget => ?_⟩
  · unfold appendToBuf Blockchain.viewChain
    refine List.map_eq_map_iff.mpr (fun b hb => ?_)
    unfold matBlock
    rw [clone_snd]
    rw [store_get_set_ne _ _ _ _ (by
      have := (hwf.2 b hb).1
      show s.cells.length + 2 ≠ b.txRef
      omega)]
  · unfold appendToBuf Blockchain.viewBuf
    rw [clone_snd]
    rw [store_get_set_ne _ _ _ _ (by
      have := hwf.1
      show s.cells.length + 2 ≠ bc.bufRef
      omega)]
  · unfold appendToBuf Blockchain.viewChain
    rw [clone_snd]
    refine List.map_eq_map_iff.mpr (fun b hb => ?_)
    unfold matBlock
    rw [store_get_set_ne _ _ _ _ (Ne.symm (hwf.2 b hb).2)]
  · unfold appendToBuf Blockchain.viewBuf
    rw [clone_snd]
    rw [store_get_set_ne _ _ _ _ (by
      have := hwf.1
      show bc.bufRef ≠ s.cells.length + 2
      omega)]
  · have hb : b ∈ bc.chain := List.get?_mem hget
    have htx : b.txRef < (Blockchain.clone ts s bc).1.cells.length := by
      rw [clone_fst]
      have := (hwf.2 b hb).1
      simp only [List.length_append]
      omega
    unfold appendToBlockTxs
    rw [clone_snd]
    show Store.get (match bc.chain.get? i with
      | none => (Blockchain.clone ts s bc).1
      | some b => ((Blockchain.clone ts s bc).1).set b.txRef
          (((Blockchain.clone ts s bc).1).get b.txRef ++ [t])) b.txRef = _
    rw [hget]
    exact store_get_set_self _ _ _ htx

/-- Witness for the amended C3 at the concrete two-block ledger. -/
theorem c3_witness :
    (Blockchain.clone "t2" c3s3 c3bc1).2.chain = c3bc1.chain ∧
    Store.get (appendToBlockTxs (Blockchain.clone "t2" c3s3 c3bc1).1
        (Blockchain.clone "t2" c3s3 c3bc1).2 1 cTxnExtra) c3blk.txRef =
      Store.get (Blockchain.clone "t2" c3s3 c3bc1).1 c3blk.txRef ++ [cTxnExtra] := by
  have h := c3_clone_independence_amended "t2" c3s3 c3bc1 (by decide)
  exact ⟨h.1, h.2.2.2.2.2 1 c3blk cTxnExtra (by decide)⟩

/-! ### Claim C2: what `Ent.balance` actually verifies -/

/-- An address registered in the simulator always passes the fresh-message
check `verify(pk, m, commit(sk, m))` that `balance` performs, whatever `m`
is, provided the entity's retained private key equals the registered one. -/
theorem verify_commit_registered (Hs : String → String) (sim : PyCryptoSim)
    (pk sk : String) (h : dictGet sim.pairs pk = some sk) (m : String) :
    PyCryptoSim.verify Hs sim pk m (PyCryptoSim.commit Hs sk m) = true := by
  unfold PyCryptoSim.verify
  rw [h]
  simp

/-- An unregistered address never verifies. -/
theorem verify_unregistered (Hs : String → String) (sim : PyCryptoSim)
    (pk : String) (h : dictGet sim.pairs pk = none) (m c : String) :
    PyCryptoSim.verify Hs sim pk m c = false := by
  unfold PyCryptoSim.verify
  rw [h]

theorem balTxn_fst_registered (Hs : String → String) (fresh : Nat → String)
    (sim : PyCryptoSim) (pk sk : String) (h : dictGet sim.pairs pk = some sk)
    (t : Txn) (acc : Int × Nat) :
    (balTxn Hs fresh sim pk sk t acc).1 = netTxn pk t acc.1 := by
  unfold balTxn netTxn
  simp only [verify_commit_registered Hs sim pk sk h]
  by_cases hs : pk = t.sender <;>
    by_cases hr : Recip.eqStr pk t.recipient = true <;>
      simp [hs, hr] <;> simp_all

theorem balTxn_fst_unregistered (Hs : String → String) (fresh : Nat → String)
    (sim : PyCryptoSim) (pk sk : String) (h : dictGet sim.pairs pk = none)
    (t : Txn) (acc : Int × Nat) :
    (balTxn Hs fresh sim pk sk t acc).1 = acc.1 := by
  unfold balTxn
  simp only [verify_unregistered Hs sim pk h]
  by_cases hs : pk = t.sender <;>
    by_cases hr : Recip.eqStr pk t.recipient = true <;>
      simp [hs, hr] <;> simp_all

theorem foldl_balTxn_fst_registered (Hs : String → String) (fresh : Nat → String)
    (sim : PyCryptoSim) (pk sk : String) (h : dictGet sim.pairs pk = some sk)
    (ts : List Txn) : ∀ acc : Int × Nat,
    (ts.foldl (fun a t => balTxn Hs fresh sim pk sk t a) acc).1 =
      ts.foldl (fun a t => netTxn pk t a) acc.1 := by
  induction ts with
  | nil => intro acc; rfl
  | cons t rest ih =>
    intro acc
    rw [List.foldl_cons, List.foldl_cons, ih, balTxn_fst_registered Hs fresh sim pk sk h]

theorem foldl_balTxn_fst_unregistered (Hs : String → String) (fresh : Nat → String)
    (sim : PyCryptoSim) (pk sk : String) (h : dictGet sim.pairs pk = none)
    (ts : List Txn) : ∀ acc : Int × Nat,
    (ts.foldl (fun a t => balTxn Hs fresh sim pk sk t a) acc).1 = acc.1 := by
  induction ts with
  | nil => intro acc; rfl
  | cons t rest ih =>
    intro acc
    rw [List.foldl_cons, ih, balTxn_fst_unregistered Hs fresh sim pk sk h]

theorem balKey_fst_registered (Hs : String → String) (fresh : Nat → String)
    (sim : PyCryptoSim) (pk sk : String) (h : dictGet sim.pairs pk = some sk)
    (chainV : List BlockVal) (k : Nat) :
    (balKey Hs fresh sim pk sk chainV k).1 = netKey pk chainV := by
  unfold balKey netKey
  suffices haux : ∀ (cv : List BlockVal) (acc : Int × Nat),
      (cv.foldl (fun acc bv => bv.transactions.foldl
        (fun a t => balTxn Hs fresh sim pk sk t a) acc) acc).1 =
      cv.foldl (fun a bv => bv.transactions.foldl (fun a t => netTxn pk t a) a) acc.1 by
    exact haux chainV (0, k)
  intro cv
  induction cv with
  | nil => intro acc; rfl
  | cons bv rest ih =>
    intro acc
    rw [List.foldl_cons, List.foldl_cons, ih,
      foldl_balTxn_fst_registered Hs fresh sim pk sk h]

theorem balKey_fst_unregistered (Hs : String → String) (fresh : Nat → String)
    (sim : PyCryptoSim) (pk sk : String) (h : dictGet sim.pairs pk = none)
    (chainV : List BlockVal) (k : Nat) :
    (balKey Hs fresh sim pk sk chainV k).1 = 0 := by
  unfold balKey
  suffices haux : ∀ (cv : List BlockVal) (acc : Int × Nat),
      (cv.foldl (fun acc bv => bv.transactions.foldl
        (fun a t => balTxn Hs fresh sim pk sk t a) acc) acc).1 = acc.1 by
    exact haux chainV (0, k)
  intro cv
  induction cv with
  | nil => intro acc; rfl
  | cons bv rest ih =>
    intro acc
    rw [List.foldl_cons, ih, foldl_balTxn_fst_unregistered Hs fresh sim pk sk h]

/-- The per-address breakdown computed by `balance`, assuming every owned key
is either registered in the entity's simulator with the same private half
(the invariant `new_address` maintains) or absent from it. -/
theorem balance_entries (Hs : String → String) (fresh : Nat → String) (k : Nat)
    (self : Ent) (s : Store) (bc : Blockchain)
    (hreg : ∀ p ∈ self.keys, dictGet self.crypto.pairs p.1 = some p.2 ∨
      dictGet self.crypto.pairs p.1 = none) :
    (Ent.balance Hs fresh k self s bc).2.1 =
      self.keys.map (fun p => (p.1,
        if dictGet self.crypto.pairs p.1 = some p.2
        then netKey p.1 (Blockchain.viewChain s bc) else 0)) := by
  unfold Ent.balance
  suffices haux : ∀ (ks : List (String × String)) (acc : List (String × Int) × Nat),
      (∀ p ∈ ks, dictGet self.crypto.pairs p.1 = some p.2 ∨
        dictGet self.crypto.pairs p.1 = none) →
      (ks.foldl (fun (acc : List (String × Int) × Nat) (p : String × String) =>
        let r := balKey Hs fresh self.crypto p.1 p.2 (Blockchain.viewChain s bc) acc.2
        (acc.1 ++ [(p.1, r.1)], r.2)) acc).1 =
      acc.1 ++ ks.map (fun p => (p.1,
        if dictGet self.crypto.pairs p.1 = some p.2
        then netKey p.1 (Blockchain.viewChain s bc) else 0)) by
    have := haux self.keys ([], k) hreg
    simpa using this
  intro ks
  induction ks with
  | nil => intro acc _; simp
  | cons p rest ih =>
    intro acc hks
    rw [List.foldl_cons, List.map_cons]
    have hp := hks p (List.mem_cons_self p rest)
    have hrest : ∀ q ∈ rest, dictGet self.crypto.pairs q.1 = some q.2 ∨
        dictGet self.crypto.pairs q.1 = none :=
      fun q hq => hks q (List.mem_cons_of_mem p hq)
    rw [ih _ hrest]
    rcases hp with hp | hp
    · rw [if_pos hp]
      simp only [balKey_fst_registered Hs fresh self.crypto p.1 p.2 hp]
      simp
    · have hne : ¬ dictGet self.crypto.pairs p.1 = some p.2 := by
        rw [hp]; simp
      rw [if_neg hne]
      simp only [balKey_fst_unregistered Hs fresh self.crypto p.1 p.2 hp]
      simp

/-- Claim C2 (amended): `balance` never consults a transaction's recorded
sender/message/commit triple.  For every owned address that is registered in
the entity's own simulator (with the retained private half), every
transaction naming it as sender is debited and every transaction naming it as
recipient is credited — signature present, absent, or bogus — and an owned
address absent from the registry nets exactly 0; the result is also
independent of the fresh `time()`/`uuid4()` draws. -/
theorem c2_balance_ignores_recorded_signature (Hs : String → String)
    (fresh : Nat → String) (k : Nat) (self : Ent) (s : Store) (bc : Blockchain)
    (hreg : ∀ p ∈ self.keys, dictGet self.crypto.pairs p.1 = some p.2 ∨
      dictGet self.crypto.pairs p.1 = none) :
    (Ent.balance Hs fresh k self s bc).2.1 =
      self.keys.map (fun p => (p.1,
        if dictGet self.crypto.pairs p.1 = some p.2
        then netKey p.1 (Blockchain.viewChain s bc) else 0)) ∧
    (Ent.balance Hs fresh k self s bc).1 =
      (self.keys.map (fun p => (p.1,
        if dictGet self.crypto.pairs p.1 = some p.2
        then netKey p.1 (Blockchain.viewChain s bc) else 0))).foldl
        (fun a e => a + e.2) 0 := by
  refine ⟨balance_entries Hs fresh k self s bc hreg, ?_⟩
  have h := balance_entries Hs fresh k self s bc hreg
  show (Ent.balance Hs fresh k self s bc).2.1.foldl (fun a e => a + e.2) 0 = _
  rw [h]

/-- Witness for the amended C2 at the concrete bogus-signature ledger. -/
theorem c2_witness :
    (Ent.balance cHs cfresh 0 c2ent c2s c2bc).2.1 =
      c2ent.keys.map (fun p => (p.1,
        if dictGet c2ent.crypto.pairs p.1 = some p.2
        then netKey p.1 (Blockchain.viewChain c2s c2bc) else 0)) ∧
    (Ent.balance cHs cfresh 0 c2ent c2s c2bc).1 =
      (c2ent.keys.map (fun p => (p.1,
        if dictGet c2ent.crypto.pairs p.1 = some p.2
        then netKey p.1 (Blockchain.viewChain c2s c2bc) else 0))).foldl
        (fun a e => a + e.2) 0 :=
  c2_balance_ignores_recorded_signature cHs cfresh 0 c2ent c2s c2bc (by decide)

/-- Claim C2 counterexample: the only transaction in the chain is sent from
the owned address `X` with recorded message `"m"` and recorded commit
`"deadbeef"`; `Verify` on that recorded triple fails, yet `balance` debits
the full 5 coins — the unverifiable transaction does not contribute 0. -/
theorem c2_counterexample :
    PyCryptoSim.verify cHs c2sim "X" "m" "deadbeef" = false ∧
    (Ent.balance cHs cfresh 0 c2ent c2s c2bc).2.1 = [("X", -5)] ∧
    (Ent.balance cHs cfresh 0 c2ent c2s c2bc).1 = -5 :=
  ⟨by decide, by decide, by decide⟩

/-! ### Claim C4: `resolve_conflicts` -/


/-- `valid_chain` raises (returns `none`) exactly on the empty chain. -/
theorem valid_chain_eq_none_iff (Hs : String → String) (H : BlockVal → String)
    (rate : Nat) (c : List BlockVal) :
    Blockchain.valid_chain Hs H rate c = none ↔ c = [] := by
  cases c with
  | nil => simp [Blockchain.valid_chain]
  | cons b rest => simp [Blockchain.valid_chain]

/-- Invariant of the peer-scan loop, by induction over the remaining peers:
the loop returns; the running maximum never decreases; afterwards every valid
candidate among the scanned peers reports at most the final maximum; if the
maximum did not move the best candidate did not either; if it moved, the
final best is a valid candidate reported at exactly the final maximum by one
of the scanned peers; and the maximum moves as soon as some scanned peer
reports a valid chain longer than the starting maximum. -/
theorem resolveLoop_spec (Hs : String → String) (H : BlockVal → String)
    (rate : Nat) (fetch : String → Option (Nat × List BlockVal)) :
    ∀ (ns : List String) (m : Nat) (best : Option (List BlockVal)),
    (∀ n ∈ ns, ∀ l c, fetch n = some (l, c) → c ≠ []) →
    ∃ m' best', resolveLoop Hs H rate fetch ns m best = some (m', best') ∧
      m ≤ m' ∧
      (∀ n ∈ ns, ∀ l c, fetch n = some (l, c) →
        Blockchain.valid_chain Hs H rate c = some true → l ≤ m') ∧
      (m' = m → best' = best) ∧
      (m < m' → ∃ n ∈ ns, ∃ c', fetch n = some (m', c') ∧
        Blockchain.valid_chain Hs H rate c' = some true ∧ best' = some c') ∧
      ((∃ n ∈ ns, ∃ l c, fetch n = some (l, c) ∧ m < l ∧
        Blockchain.valid_chain Hs H rate c = some true) → m < m') := by
  intro ns
  induction ns with
  | nil =>
    intro m best _
    refine ⟨m, best, rfl, le_refl m, by simp, fun _ => rfl,
      fun h => absurd h (lt_irrefl m), by simp⟩
  | cons n rest ih =>
    intro m best hne
    have hner : ∀ q ∈ rest, ∀ l c, fetch q = some (l, c) → c ≠ [] :=
      fun q hq => hne q (List.mem_cons_of_mem n hq)
    simp only [resolveLoop]
    split
    · rename_i hf
      obtain ⟨m', best', heq, hle, hC, hD, hE, hF⟩ := ih m best hner
      refine ⟨m', best', heq, hle, ?_, hD, ?_, ?_⟩
      · intro q hq l c hfq hv
        rcases List.mem_cons.mp hq with rfl | hq
        · rw [hf] at hfq; exact absurd hfq (by simp)
        · exact hC q hq l c hfq hv
      · intro hlt
        obtain ⟨q, hq, c', h1, h2, h3⟩ := hE hlt
        exact ⟨q, List.mem_cons_of_mem n hq, c', h1, h2, h3⟩
      · rintro ⟨q, hq, l, c, hfq, hml, hv⟩
        rcases List.mem_cons.mp hq with rfl | hq
        · rw [hf] at hfq; exact absurd hfq (by simp)
        · exact hF ⟨q, hq, l, c, hfq, hml, hv⟩
    · rename_i l c hf
      split
      · rename_i hml
        split
        · rename_i hvc
          have : c = [] := (valid_chain_eq_none_iff Hs H rate c).mp hvc
          exact absurd this (hne n (List.mem_cons_self n rest) l c hf)
        · rename_i hvc
          obtain ⟨m', best', heq, hle, hC, hD, hE, hF⟩ := ih l (some c) hner
          refine ⟨m', best', heq, le_trans (le_of_lt hml) hle, ?_, ?_, ?_, ?_⟩
          · intro q hq l' c' hfq hv
            rcases List.mem_cons.mp hq with rfl | hq
            · rw [hf] at hfq
              simp only [Option.some.injEq, Prod.mk.injEq] at hfq
              obtain ⟨rfl, rfl⟩ := hfq
              exact hle
            · exact hC q hq l' c' hfq hv
          · intro h
            omega
          · intro _
            rcases Nat.lt_or_ge l m' with hlm | hlm
            · obtain ⟨q, hq, c', h1, h2, h3⟩ := hE hlm
              exact ⟨q, List.mem_cons_of_mem n hq, c', h1, h2, h3⟩
            · have hm'l : m' = l := le_antisymm hlm hle
              refine ⟨n, List.mem_cons_self n rest, c, ?_, hvc, hD hm'l⟩
              rw [hf, hm'l]
          · intro _
            exact lt_of_lt_of_le hml hle
        · rename_i hvc
          obtain ⟨m', best', heq, hle, hC, hD, hE, hF⟩ := ih m best hner
          refine ⟨m', best', heq, hle, ?_, hD, ?_, ?_⟩
          · intro q hq l' c' hfq hv
            rcases List.mem_cons.mp hq with rfl | hq
            · rw [hf] at hfq
              simp only [Option.some.injEq, Prod.mk.injEq] at hfq
              obtain ⟨rfl, rfl⟩ := hfq
              rw [hvc] at hv
              exact absurd hv (by simp)
            · exact hC q hq l' c' hfq hv
          · intro hlt
            obtain ⟨q, hq, c', h1, h2, h3⟩ := hE hlt
            exact ⟨q, List.mem_cons_of_mem n hq, c', h1, h2, h3⟩
          · rintro ⟨q, hq, l', c', hfq, hml', hv⟩
            rcases List.mem_cons.mp hq with rfl | hq
            · rw [hf] at hfq
              simp only [Option.some.injEq, Prod.mk.injEq] at hfq
              obtain ⟨rfl, rfl⟩ := hfq
              rw [hvc] at hv
              exact absurd hv (by simp)
            · exact hF ⟨q, hq, l', c', hfq, hml', hv⟩
      · rename_i hml
        obtain ⟨m', best', heq, hle, hC, hD, hE, hF⟩ := ih m best hner
        refine ⟨m', best', heq, hle, ?_, hD, ?_, ?_⟩
        · intro q hq l' c' hfq hv
          rcases List.mem_cons.mp hq with rfl | hq
          · rw [hf] at hfq
            simp only [Option.some.injEq, Prod.mk.injEq] at hfq
            obtain ⟨rfl, rfl⟩ := hfq
            omega
          · exact hC q hq l' c' hfq hv
        · intro hlt
          obtain ⟨q, hq, c', h1, h2, h3⟩ := hE hlt
          exact ⟨q, List.mem_cons_of_mem n hq, c', h1, h2, h3⟩
        · rintro ⟨q, hq, l', c', hfq, hml', hv⟩
          rcases List.mem_cons.mp hq with rfl | hq
          · rw [hf] at hfq
            simp only [Option.some.injEq, Prod.mk.injEq] at hfq
            obtain ⟨rfl, rfl⟩ := hfq
            omega
          · exact hF ⟨q, hq, l', c', hfq, hml', hv⟩

/-- Claim C4: with the peer transport modelled as a function from peer to
reported length and chain (`none` = unreachable/non-200), and assuming every
reachable peer reports a nonempty chain (every serialized ledger contains at
least a genesis block), `resolve_conflicts` returns; it replaces the local
chain iff some fetched candidate reports a length strictly greater than the
local chain's length and passes `valid_chain` in silent mode (candidates must
in fact beat every previously accepted candidate, but the first sufficiently
long valid one always gets accepted, so the two conditions agree); on `false`
the local chain stays; on `true` the adopted chain is a valid fetched
candidate whose reported length strictly exceeds the local length and is
maximal among all valid candidates — a single swap to the best accepted
candidate after scanning all peers. -/
theorem c4_resolve_conflicts_spec (Hs : String → String) (H : BlockVal → String)
    (rate : Nat) (fetch : String → Option (Nat × List BlockVal))
    (nodes : List String) (localChain : List BlockVal)
    (hne : ∀ n ∈ nodes, ∀ l c, fetch n = some (l, c) → c ≠ []) :
    ∃ replaced final,
      Blockchain.resolve_conflicts Hs H rate fetch nodes localChain =
        some (replaced, final) ∧
      (replaced = true ↔ ∃ n ∈ nodes, ∃ l c, fetch n = some (l, c) ∧
        localChain.length < l ∧ Blockchain.valid_chain Hs H rate c = some true) ∧
      (replaced = false → final = localChain) ∧
      (replaced = true →
        ∃ n ∈ nodes, ∃ l, fetch n = some (l, final) ∧ localChain.length < l ∧
          Blockchain.valid_chain Hs H rate final = some true ∧
          ∀ n' ∈ nodes, ∀ l' c', fetch n' = some (l', c') →
            Blockchain.valid_chain Hs H rate c' = some true → l' ≤ l) := by
  obtain ⟨m', best', heq, hle, hC, hD, hE, hF⟩ :=
    resolveLoop_spec Hs H rate fetch nodes localChain.length none hne
  unfold Blockchain.resolve_conflicts
  rw [heq]
  cases best' with
  | none =>
    refine ⟨false, localChain, rfl, ?_, fun _ => rfl, fun h => absurd h (by simp)⟩
    constructor
    · intro h
      exact absurd h (by simp)
    · rintro ⟨n, hn, l, c, hf, hml, hv⟩
      have hlt := hF ⟨n, hn, l, c, hf, hml, hv⟩
      obtain ⟨q, hq, c', hfq, hvq, habs⟩ := hE hlt
      exact absurd habs (by simp)
  | some c =>
    have hmlt : localChain.length < m' := by
      rcases Nat.lt_or_ge localChain.length m' with h | h
      · exact h
      · have hm : m' = localChain.length := le_antisymm h hle
        have := hD hm
        exact absurd this (by simp)
    obtain ⟨n, hn, c', hfn, hvn, hceq⟩ := hE hmlt
    have hcc : c' = c := by
      simpa using hceq.symm
    subst hcc
    have hcne : c' ≠ [] := hne n hn m' c' hfn
    have hie : c'.isEmpty = false := by
      cases c' with
      | nil => exact absurd rfl hcne
      | cons _ _ => rfl
    show ∃ replaced final,
      (if c'.isEmpty = true then some (false, localChain) else some (true, c')) =
        some (replaced, final) ∧ _
    rw [hie]
    refine ⟨true, c', by simp, ?_, fun h => absurd h (by simp), ?_⟩
    · exact ⟨fun _ => ⟨n, hn, m', c', hfn, hmlt, hvn⟩, fun _ => rfl⟩
    · intro _
      exact ⟨n, hn, m', hfn, hmlt, hvn, fun q hq l' cq hfq hvq => hC q hq l' cq hfq hvq⟩

/-- Witness for C4: a single peer reporting a longer valid chain causes a
replacement. -/
theorem c4_witness :
    ∃ replaced final,
      Blockchain.resolve_conflicts cHs cH 4 c4fetch ["n1"] [c4gv] =
        some (replaced, final) ∧ replaced = true := by
  have hne : ∀ n ∈ ["n1"], ∀ l c, c4fetch n = some (l, c) → c ≠ [] := by
    intro n hn l c hf
    have hn1 : n = "n1" := by simpa using hn
    subst hn1
    unfold c4fetch at hf
    rw [if_pos rfl] at hf
    simp only [Option.some.injEq, Prod.mk.injEq] at hf
    rw [← hf.2]
    simp
  obtain ⟨replaced, final, heq, hiff, _, _⟩ :=
    c4_resolve_conflicts_spec cHs cH 4 c4fetch ["n1"] [c4gv] hne
  refine ⟨replaced, final, heq, ?_⟩
  apply hiff.mpr
  refine ⟨"n1", by simp, 2, [c4gv, c4bv], ?_, by decide, by decide⟩
  unfold c4fetch
  rw [if_pos rfl]

/-! ### Claim C5: `some_fake` tampering is invisible to `valid_chain` -/

theorem store_get_alloc_lt (s : Store) (v : List Txn) (r : Nat)
    (h : r < s.cells.length) : (s.alloc v).1.get r = s.get r :=
  store_get_append s [v] r h

theorem store_get_alloc_self (s : Store) (v : List Txn) :
    (s.alloc v).1.get s.cells.length = v := by
  unfold Store.alloc Store.get
  rw [List.getD_append_right _ _ _ _ (le_refl _)]
  simp

/-- The two adjacent-pair checks of `valid_chain` on a two-block chain. -/
theorem validLoop_singleton (Hs : String → String) (H : BlockVal → String)
    (d : Nat) (last b : BlockVal) :
    validLoop Hs H d last [b] = true ↔
      b.previous_hash = H last ∧
      Blockchain.valid_proof Hs last.proof b.proof d = true := by
  unfold validLoop
  split_ifs with h1 h2
  · simp only [Bool.false_eq_true, false_iff]
    intro hc
    exact h1 hc.1
  · simp only [Bool.false_eq_true, false_iff]
    intro hc
    rw [hc.2] at h2
    exact absurd h2 (by simp)
  · have hp : b.previous_hash = H last := by
      by_contra hcon
      exact h1 hcon
    have hv : Blockchain.valid_proof Hs last.proof b.proof d = true := by
      cases hvp : Blockchain.valid_proof Hs last.proof b.proof d with
      | true => rfl
      | false => exact absurd hvp h2
    simp [validLoop, hp, hv]

/-- Claim C5: on a two-block chain — genesis (empty transaction list) plus one
sealed block holding a transaction with a (truthy) recipient — `some_fake`
succeeds, appends a copy of that transaction with a substituted recipient
inside the already-sealed block, and `valid_chain` at the same difficulty
still accepts the fork: the adjacent hash-linkage and proof checks read only
`previous_hash` and `proof`, which the tampering does not touch. -/
theorem c5_some_fake_undetected (Hs : String → String) (H : BlockVal → String)
    (d : Nat) (ts pub priv : String) (self : Ent) (s : Store) (bc : Blockchain)
    (gv bv : BlockVal) (t : Txn)
    (hview : Blockchain.viewChain s bc = [gv, bv])
    (hwf : BCWF s bc)
    (hgen : gv.transactions = [])
    (hfind : findTruthy bv.transactions = some t)
    (hfree : dictGet self.crypto.pairs pub = none)
    (hvalid : Blockchain.valid_chain Hs H d (Blockchain.viewChain s bc) = some true) :
    ∃ s' bc' self', Ent.some_fake ts pub priv self s bc = some (s', bc', self') ∧
      Blockchain.viewChain s' bc' =
        [gv, { bv with transactions :=
          bv.transactions ++ [{ t with recipient := Recip.tup pub }] }] ∧
      Blockchain.valid_chain Hs H d (Blockchain.viewChain s' bc') = some true := by
  obtain ⟨gB, bB, hchain, hg, hb⟩ :
      ∃ gB bB, bc.chain = [gB, bB] ∧ matBlock s gB = gv ∧ matBlock s bB = bv := by
    unfold Blockchain.viewChain at hview
    rcases hcs : bc.chain with _ | ⟨gB, rest⟩
    · rw [hcs] at hview; simp at hview
    · rcases rest with _ | ⟨bB, rest2⟩
      · rw [hcs] at hview; simp at hview
      · rcases rest2 with _ | ⟨x, r3⟩
        · rw [hcs] at hview
          simp only [List.map_cons, List.map_nil, List.cons.injEq, and_true] at hview
          exact ⟨gB, bB, rfl, hview.1, hview.2⟩
        · rw [hcs] at hview; simp at hview
  subst hg
  subst hb
  have hgB : gB ∈ bc.chain := by rw [hchain]; simp
  have hbB : bB ∈ bc.chain := by rw [hchain]; simp
  have hglt := (hwf.2 gB hgB).1
  have hblt := (hwf.2 bB hbB).1
  have hgetg : (Blockchain.clone ts s bc).1.get gB.txRef = s.get gB.txRef :=
    clone_get_lt ts s bc _ hglt
  have hgetb : (Blockchain.clone ts s bc).1.get bB.txRef = s.get bB.txRef :=
    clone_get_lt ts s bc _ hblt
  have hge : s.get gB.txRef = [] := hgen
  have hfind2 : findTruthy (s.get bB.txRef) = some t := hfind
  have hscan : findFakeIdx (Blockchain.clone ts s bc).1
      (Blockchain.clone ts s bc).2.chain 0 = some (1, bB, t) := by
    rw [clone_snd]
    show findFakeIdx (Blockchain.clone ts s bc).1 bc.chain 0 = some (1, bB, t)
    rw [hchain]
    simp only [findFakeIdx, hgetg, hgetb, hge, hfind2]
    rfl
  have haddr : Ent.new_address pub priv self =
      some (pub, { self with
        keys := dictSet self.keys pub priv,
        crypto := ⟨self.crypto.pairs ++ [(pub, priv)]⟩ }) := by
    unfold Ent.new_address PyCryptoSim.key_pair
    rw [hfree]
  simp only [Ent.some_fake, hscan, haddr]
  have hchain2 : (Blockchain.clone ts s bc).2.chain = bc.chain := by rw [clone_snd]
  have hlen3 : (Blockchain.clone ts s bc).1.cells.length = s.cells.length + 3 := by
    rw [clone_fst]
    simp
  have e1 : matBlock ((Blockchain.clone ts s bc).1.alloc
      ((Blockchain.clone ts s bc).1.get bB.txRef ++
        [{ t with recipient := Recip.tup pub }])).1 gB = matBlock s gB := by
    unfold matBlock
    rw [store_get_alloc_lt _ _ _ (by omega), hgetg]
  have e2 : matBlock ((Blockchain.clone ts s bc).1.alloc
      ((Blockchain.clone ts s bc).1.get bB.txRef ++
        [{ t with recipient := Recip.tup pub }])).1
      { bB with txRef := (Blockchain.clone ts s bc).1.cells.length } =
      { matBlock s bB with transactions :=
        (matBlock s bB).transactions ++ [{ t with recipient := Recip.tup pub }] } := by
    unfold matBlock
    show ({
      index := bB.index,
      timestamp := bB.timestamp,
      transactions := ((Blockchain.clone ts s bc).1.alloc
        ((Blockchain.clone ts s bc).1.get bB.txRef ++
          [{ t with recipient := Recip.tup pub }])).1.get
        (Blockchain.clone ts s bc).1.cells.length,
      proof := bB.proof,
      previous_hash := bB.previous_hash } : BlockVal) = _
    rw [store_get_alloc_self, hgetb]
  have hview2 : Blockchain.viewChain
      ((Blockchain.clone ts s bc).1.alloc
        ((Blockchain.clone ts s bc).1.get bB.txRef ++
          [{ t with recipient := Recip.tup pub }])).1
      { (Blockchain.clone ts s bc).2 with
        chain := ((Blockchain.clone ts s bc).2.chain.set 1
          { bB with txRef := (Blockchain.clone ts s bc).1.cells.length }) } =
      [matBlock s gB, { matBlock s bB with transactions :=
        (matBlock s bB).transactions ++ [{ t with recipient := Recip.tup pub }] }] := by
    unfold Blockchain.viewChain
    show (((Blockchain.clone ts s bc).2.chain.set 1
      { bB with txRef := (Blockchain.clone ts s bc).1.cells.length }).map
        (matBlock _)) = _
    rw [hchain2, hchain]
    show [matBlock _ gB, matBlock _ { bB with txRef := (Blockchain.clone ts s bc).1.cells.length }] = _
    rw [e1, e2]
  refine ⟨_, _, _, rfl, hview2, ?_⟩
  rw [hview] at hvalid
  have hvl : validLoop Hs H d (matBlock s gB) [matBlock s bB] = true :=
    Option.some.inj hvalid
  obtain ⟨hprev, hproof⟩ := (validLoop_singleton Hs H d _ _).mp hvl
  have hfinal : Blockchain.valid_chain Hs H d
      [matBlock s gB, { matBlock s bB with transactions :=
        (matBlock s bB).transactions ++ [{ t with recipient := Recip.tup pub }] }] =
      some true := by
    show some (validLoop Hs H d (matBlock s gB)
      [{ matBlock s bB with transactions :=
        (matBlock s bB).transactions ++ [{ t with recipient := Recip.tup pub }] }]) =
      some true
    exact congrArg some ((validLoop_singleton Hs H d _ _).mpr ⟨hprev, hproof⟩)
  exact (congrArg (Blockchain.valid_chain Hs H d) hview2).trans hfinal

/-- Witness for C5 at the concrete valid two-block ledger. -/
theorem c5_witness :
    ∃ s' bc' self', Ent.some_fake "tc" "pub0" "prv0" cEntEmpty c3s3 c5bc =
        some (s', bc', self') ∧
      Blockchain.viewChain s' bc' =
        [c4gv, { c4bv with transactions :=
          c4bv.transactions ++ [{ cTxn1 with recipient := Recip.tup "pub0" }] }] ∧
      Blockchain.valid_chain cHs cH 4 (Blockchain.viewChain s' bc') = some true :=
  c5_some_fake_undetected cHs cH 4 "tc" "pub0" "prv0" cEntEmpty c3s3 c5bc c4gv c4bv
    cTxn1 (by decide) (by decide) (by decide) (by decide) (by decide) (by decide)

/-! ### Claim C8: the hash-linkage invariant of chains built by `new_block` -/

/-- `new_transaction` only appends one transaction to the buffer cell. -/
theorem new_transaction_fst (sender : String) (r : Recip) (a : Int)
    (sig msg : Option String) (s : Store) (bc : Blockchain) :
    ∃ tx, (Blockchain.new_transaction sender r a sig msg s bc).1 =
      s.set bc.bufRef (s.get bc.bufRef ++ [tx]) := by
  unfold Blockchain.new_transaction
  cases bc.chain.getLast? <;> exact ⟨_, rfl⟩

/-- Decomposition of a successful `new_block`: one fresh empty cell is
allocated and becomes the buffer, and the appended block seals the old
buffer cell. -/
theorem new_block_elim (H : BlockVal → String) (ts : String) (p : Nat)
    (ph : String) (s : Store) (bc : Blockchain) (s' : Store) (bc' : Blockchain)
    (blk : BlockRec) (h : Blockchain.new_block H ts p ph s bc = some (s', bc', blk)) :
    s' = ⟨s.cells ++ [[]]⟩ ∧
    bc' = { bc with chain := bc.chain ++ [blk], bufRef := s.cells.length } ∧
    blk.txRef = bc.bufRef := by
  unfold Blockchain.new_block at h
  split at h
  · exact absurd h (by simp)
  · rename_i ph' hph'
    simp only [Store.alloc, Option.some.injEq, Prod.mk.injEq] at h
    obtain ⟨h1, h2, h3⟩ := h
    refine ⟨h1.symm, ?_, ?_⟩
    · rw [← h2, ← h3]
    · rw [← h3]

/-- The `previous_hash` a successful `new_block` writes, under the sealing
discipline (empty argument, or explicitly the hash of the last block): it is
the hash of the materialized last block. -/
theorem new_block_prev (H : BlockVal → String) (ts : String) (p : Nat)
    (ph : String) (s : Store) (bc : Blockchain) (s' : Store) (bc' : Blockchain)
    (blk : BlockRec) (h : Blockchain.new_block H ts p ph s bc = some (s', bc', blk))
    (hph : ph = "" ∨ ∃ lb, bc.chain.getLast? = some lb ∧ ph = H (matBlock s lb)) :
    ∃ lb, bc.chain.getLast? = some lb ∧ blk.previous_hash = H (matBlock s lb) := by
  unfold Blockchain.new_block at h
  split at h
  · exact absurd h (by simp)
  · rename_i ph' hph'
    simp only [Store.alloc, Option.some.injEq, Prod.mk.injEq] at h
    obtain ⟨h1, h2, h3⟩ := h
    have hprev : blk.previous_hash = ph' := by rw [← h3]
    by_cases hempty : ph = ""
    · rw [if_pos hempty] at hph'
      obtain ⟨lb, hlb, hf⟩ := Option.map_eq_some'.mp hph'
      exact ⟨lb, hlb, by rw [hprev, ← hf]⟩
    · rw [if_neg hempty] at hph'
      have hpe : ph' = ph := (Option.some.inj hph').symm
      rcases hph with hph | ⟨lb, hlb, hf⟩
      · exact absurd hph hempty
      · exact ⟨lb, hlb, by rw [hprev, hpe, hf]⟩

/-- The inductive invariant of reachable ledger states: well-formedness, a
nonempty chain, the genesis sentinel, and the adjacent hash linkage of the
materialized chain. -/
theorem reach_invariant (H : BlockVal → String) (s : Store) (bc : Blockchain)
    (h : Reach H s bc) :
    BCWF s bc ∧ bc.chain ≠ [] ∧
    (∀ g, (Blockchain.viewChain s bc).get? 0 = some g → g.previous_hash = "1") ∧
    (∀ i b1 b2, (Blockchain.viewChain s bc).get? i = some b1 →
      (Blockchain.viewChain s bc).get? (i + 1) = some b2 →
      b2.previous_hash = H b1) := by
  induction h with
  | genesis s0 ts seed rate =>
    refine ⟨⟨?_, ?_⟩, by simp [Blockchain.mkInit, Store.alloc], ?_, ?_⟩
    · show (s0.cells ++ [[]]).length < ((s0.cells ++ [[]]) ++ [[]]).length
      simp
    · intro b hb
      simp only [Blockchain.mkInit, Store.alloc, List.mem_singleton] at hb
      subst hb
      constructor
      · show s0.cells.length < ((s0.cells ++ [[]]) ++ [[]]).length
        simp
      · show s0.cells.length ≠ (s0.cells ++ [[]]).length
        simp
    · intro g hg
      simp only [Blockchain.mkInit, Store.alloc, Blockchain.viewChain, List.map_cons,
        List.map_nil, List.get?_cons_zero, Option.some.injEq] at hg
      rw [← hg]
      rfl
    · intro i b1 b2 h1 h2
      simp only [Blockchain.mkInit, Store.alloc, Blockchain.viewChain, List.map_cons,
        List.map_nil] at h2
      rw [List.get?_cons_succ] at h2
      simp at h2
  | newTx s0 bc0 sender r a sig msg hr ih =>
    obtain ⟨⟨hbuf, hblocks⟩, hnil, hhead, hlink⟩ := ih
    obtain ⟨tx, hfst⟩ := new_transaction_fst sender r a sig msg s0 bc0
    rw [hfst]
    have hlen : (s0.set bc0.bufRef (s0.get bc0.bufRef ++ [tx])).cells.length =
        s0.cells.length := by
      unfold Store.set
      simp
    have hview : Blockchain.viewChain (s0.set bc0.bufRef (s0.get bc0.bufRef ++ [tx])) bc0 =
        Blockchain.viewChain s0 bc0 := by
      unfold Blockchain.viewChain
      refine List.map_eq_map_iff.mpr (fun b hb => ?_)
      unfold matBlock
      rw [store_get_set_ne _ _ _ _ (Ne.symm (hblocks b hb).2)]
    refine ⟨⟨by rw [hlen]; exact hbuf, fun b hb => ?_⟩, hnil, ?_, ?_⟩
    · rw [hlen]
      exact hblocks b hb
    · rw [hview]
      exact hhead
    · rw [hview]
      exact hlink
  | newBlk s0 s1 bc0 bc1 ts p ph blk hr hph hnb ih =>
    obtain ⟨⟨hbuf, hblocks⟩, hnil, hhead, hlink⟩ := ih
    obtain ⟨hs1, hbc1, htx⟩ := new_block_elim H ts p ph s0 bc0 s1 bc1 blk hnb
    obtain ⟨lb, hlb, hprev⟩ := new_block_prev H ts p ph s0 bc0 s1 bc1 blk hnb hph
    subst hs1
    subst hbc1
    have hget1 : ∀ r, r < s0.cells.length →
        Store.get ⟨s0.cells ++ [[]]⟩ r = s0.get r :=
      fun r hr' => store_get_append s0 [[]] r hr'
    have hmat : ∀ b ∈ bc0.chain, matBlock ⟨s0.cells ++ [[]]⟩ b = matBlock s0 b := by
      intro b hb
      unfold matBlock
      rw [hget1 b.txRef (hblocks b hb).1]
    have hview : Blockchain.viewChain ⟨s0.cells ++ [[]]⟩
        { bc0 with chain := bc0.chain ++ [blk], bufRef := s0.cells.length } =
        Blockchain.viewChain s0 bc0 ++ [matBlock ⟨s0.cells ++ [[]]⟩ blk] := by
      unfold Blockchain.viewChain
      show (bc0.chain ++ [blk]).map _ = _
      rw [List.map_append]
      simp only [List.map_cons, List.map_nil]
      congr 1
      exact List.map_eq_map_iff.mpr hmat
    have hvlen : (Blockchain.viewChain s0 bc0).length = bc0.chain.length := by
      unfold Blockchain.viewChain
      simp
    refine ⟨⟨?_, ?_⟩, by simp, ?_, ?_⟩
    · show s0.cells.length < (s0.cells ++ [[]]).length
      simp
    · intro b hb
      show b.txRef < (s0.cells ++ [[]]).length ∧ b.txRef ≠ s0.cells.length
      rcases List.mem_append.mp hb with hb | hb
      · have := (hblocks b hb).1
        constructor <;> [skip; omega]
        simp only [List.length_append, List.length_cons, List.length_nil]
        omega
      · have hbe : b = blk := by simpa using hb
        subst hbe
        rw [htx]
        have := hbuf
        constructor <;> [skip; omega]
        simp only [List.length_append, List.length_cons, List.length_nil]
        omega
    · intro g hg
      rw [hview] at hg
      have hne0 : 0 < (Blockchain.viewChain s0 bc0).length := by
        rw [hvlen]
        exact List.length_pos.mpr hnil
      rw [List.get?_append hne0] at hg
      exact hhead g hg
    · intro i b1 b2 h1 h2
      rw [hview] at h1 h2
      rcases Nat.lt_trichotomy (i + 1) (Blockchain.viewChain s0 bc0).length with hc | hc | hc
      · rw [List.get?_append hc] at h2
        rw [List.get?_append (by omega)] at h1
        exact hlink i b1 b2 h1 h2
      · rw [hc, List.get?_concat_length] at h2
        have hb2 : b2 = matBlock ⟨s0.cells ++ [[]]⟩ blk := (Option.some.inj h2).symm
        rw [List.get?_append (by omega)] at h1
        have hlast : (Blockchain.viewChain s0 bc0).getLast? = some (matBlock s0 lb) := by
          unfold Blockchain.viewChain
          rw [List.getLast?_map, hlb]
          rfl
        have hb1 : b1 = matBlock s0 lb := by
          rw [List.getLast?_eq_get?] at hlast
          have hidx : (Blockchain.viewChain s0 bc0).length - 1 = i := by omega
          rw [hidx] at hlast
          rw [h1] at hlast
          exact Option.some.inj hlast
        rw [hb2, hb1]
        show blk.previous_hash = H (matBlock s0 lb)
        exact hprev
      · have hlen2 : (Blockchain.viewChain s0 bc0 ++
            [matBlock ⟨s0.cells ++ [[]]⟩ blk]).length ≤ i + 1 := by
          simp only [List.length_append, List.length_cons, List.length_nil]
          omega
        rw [List.get?_eq_none.mpr hlen2] at h2
        exact absurd h2 (by simp)

/-- Claim C8: for every ledger state produced from genesis by `new_block`
calls whose `previous_hash` is omitted/empty (fallback `hash(chain[-1])`) or
explicitly the hash of the then-last block, with any interleaved
`new_transaction` calls: the genesis block carries the literal sentinel `"1"`
and every later block's `previous_hash` equals the hash of the materialized
previous block. -/
theorem c8_chain_linkage_invariant (H : BlockVal → String) (s : Store)
    (bc : Blockchain) (h : Reach H s bc) :
    (∀ g, (Blockchain.viewChain s bc).get? 0 = some g → g.previous_hash = "1") ∧
    (∀ i b1 b2, (Blockchain.viewChain s bc).get? i = some b1 →
      (Blockchain.viewChain s bc).get? (i + 1) = some b2 →
      b2.previous_hash = H b1) :=
  ⟨(reach_invariant H s bc h).2.2.1, (reach_invariant H s bc h).2.2.2⟩

/-- Witness for C8: a fresh ledger plus one block sealed with the empty
`previous_hash` (the fallback hashes the genesis). -/
theorem c8_witness :
    ((Blockchain.viewChain c8s1 c8bc1).get? 1).map BlockVal.previous_hash =
      ((Blockchain.viewChain c8s1 c8bc1).get? 0).map (fun b => cH b) ∧
    ((Blockchain.viewChain c8s1 c8bc1).get? 0).map BlockVal.previous_hash =
      some "1" := by
  have hnb : Blockchain.new_block cH "t1" 5 "" c3i.1 c3i.2 =
      some (c8s1, c8bc1, c8blk) := by decide
  have hreach : Reach cH c8s1 c8bc1 :=
    Reach.newBlk c3i.1 c8s1 c3i.2 c8bc1 "t1" 5 "" c8blk
      (Reach.genesis ⟨[]⟩ "t0" 100 4) (Or.inl rfl) hnb
  obtain ⟨hhead, hlink⟩ := c8_chain_linkage_invariant cH c8s1 c8bc1 hreach
  have h0 : (Blockchain.viewChain c8s1 c8bc1).get? 0 =
      some (matBlock c8s1 c3g) := by decide
  have h1 : (Blockchain.viewChain c8s1 c8bc1).get? 1 =
      some (matBlock c8s1 c8blk) := by decide
  constructor
  · rw [h0, h1, Option.map_some', Option.map_some']
    exact congrArg some (hlink 0 _ _ h0 h1)
  · rw [h0, Option.map_some']
    exact congrArg some (hhead _ h0)
